import Mathlib

/-!
Verification of the subgraph-pattern mining core of the Galois repository
(src/lonestar/include/Mining/miner.h) against its natural-language
specification.  The embedding classes (EdgeEmbedding, VertexEmbedding,
BaseEmbedding), the quick-pattern key and the canonical-form oracle live
outside the sources available here; they are modelled from the spec at
their interface.  Everything in class Miner is translated from miner.h.
-/

namespace GaloisMining

/-- Modelled from the spec: one step of an edge embedding (ElementType from
the embedding header, not in src): a vertex identifier and a history index
pointing at the element it extended from.  Labels do not participate in any
claim and are omitted. -/
structure EElem where
  vid : Nat
  his : Nat
deriving DecidableEq, Repr

/-- Modelled from the spec: an edge embedding is an ordered sequence of
elements, plus the quick-pattern id recorded on it by aggregation. -/
structure EdgeEmbedding where
  elems : List EElem
  qpid : Nat := 0
deriving DecidableEq, Repr

def EdgeEmbedding.size (e : EdgeEmbedding) : Nat := e.elems.length

def EdgeEmbedding.get_vertex (e : EdgeEmbedding) (i : Nat) : Nat :=
  (e.elems.getD i ⟨0, 0⟩).vid

def EdgeEmbedding.get_history (e : EdgeEmbedding) (i : Nat) : Nat :=
  (e.elems.getD i ⟨0, 0⟩).his

def EdgeEmbedding.push_back (e : EdgeEmbedding) (x : EElem) : EdgeEmbedding :=
  ⟨e.elems ++ [x], e.qpid⟩

def EdgeEmbedding.pop_back (e : EdgeEmbedding) : EdgeEmbedding :=
  ⟨e.elems.dropLast, e.qpid⟩

def EdgeEmbedding.get_qpid (e : EdgeEmbedding) : Nat := e.qpid

/-- Modelled from the spec: the graph provider interface — per-vertex edge
iteration yielding destination vertex ids.  Read-only for the miner. -/
structure SGraph where
  adj : Nat → List Nat

/-- Vertex access with the value-initialized default, standing for
`get_vertex` on the vertex-only embeddings (BaseEmbedding/VertexEmbedding),
which are plain vertex sequences. -/
def vget (l : List Nat) (i : Nat) : Nat := l.getD i 0

/-- Miner::degree_counting precomputes `degrees[v]` as the length of v's
edge list (std::distance over the edge range). -/
def degreesOf (g : SGraph) (v : Nat) : Nat := (g.adj v).length

/-- Miner::is_connected from miner.h: search the shorter adjacency list for
the other endpoint. -/
def is_connected (g : SGraph) (a b : Nat) : Bool :=
  if degreesOf g a < degreesOf g b then (g.adj a).contains b
  else (g.adj b).contains a

/-- Miner::is_all_connected from miner.h (the live `#else` branch): the
candidate must be connected to every embedding vertex at positions
0 .. n-2. -/
def is_all_connected (g : SGraph) (dst : Nat) (emb : List Nat) : Bool :=
  (List.range (emb.length - 1)).all (fun i => is_connected g (vget emb i) dst)

/-! ### Support evaluation (miner.h get_support / support_count) -/

/-- Miner::get_support from miner.h: starting from 0xFFFFFFFF, take the
minimal domain-set size over all slots. -/
def get_support (domainSets : List (Finset Nat)) : Nat :=
  domainSets.foldl
    (fun support s => if s.card < support then s.card else support)
    4294967295

/-- UintMap insert (std::map::insert semantics used by support_count):
inserts only when the key is absent. -/
def um_insert (m : List (Nat × Nat)) (k v : Nat) : List (Nat × Nat) :=
  if (List.lookup k m).isSome then m else m ++ [(k, v)]

/-- Miner::support_count (CgMapDomain overload) from miner.h: for every
canonical entry, record its domain support into the support map and count
it when the support reaches the threshold.  Canonical patterns are keyed by
their id. -/
def support_count (threshold : Nat) (cg_map : List (Nat × List (Finset Nat)))
    (support_map : List (Nat × Nat)) : List (Nat × Nat) × Nat :=
  cg_map.foldl
    (fun s p =>
      (um_insert s.1 p.1 (get_support p.2),
       if threshold ≤ get_support p.2 then s.2 + 1 else s.2))
    (support_map, 0)

lemma get_support_foldl_min (doms : List (Finset Nat)) :
    ∀ init : Nat,
      doms.foldl (fun support s => if s.card < support then s.card else support) init
        = (doms.map Finset.card).foldl Nat.min init := by
  induction doms with
  | nil => intro init; rfl
  | cons d ds ih =>
    intro init
    simp only [List.foldl_cons, List.map_cons]
    rw [ih]
    congr 1
    simp only [Nat.min_def]
    split <;> split <;> omega

lemma foldl_min_le_init (l : List Nat) : ∀ init : Nat, l.foldl Nat.min init ≤ init := by
  induction l with
  | nil => intro init; simp
  | cons x xs ih =>
    intro init
    simp only [List.foldl_cons]
    exact le_trans (ih _) (Nat.min_le_left _ _)

lemma foldl_min_le_mem (l : List Nat) :
    ∀ init : Nat, ∀ x ∈ l, l.foldl Nat.min init ≤ x := by
  induction l with
  | nil => intro _ x hx; cases hx
  | cons y ys ih =>
    intro init x hx
    rcases List.mem_cons.mp hx with rfl | hx
    · exact le_trans (foldl_min_le_init ys _) (Nat.min_le_right _ _)
    · exact ih _ x hx

lemma foldl_min_mem (l : List Nat) :
    ∀ init : Nat, l.foldl Nat.min init = init ∨ l.foldl Nat.min init ∈ l := by
  induction l with
  | nil => intro init; left; rfl
  | cons y ys ih =>
    intro init
    simp only [List.foldl_cons, Nat.min_def]
    split
    · rcases ih init with h | h
      · left; exact h
      · right; exact List.mem_cons_of_mem _ h
    · rcases ih y with h | h
      · right; exact List.mem_cons.mpr (Or.inl h)
      · right; exact List.mem_cons_of_mem _ h

lemma lookup_append_some {β : Type} {k : Nat} {v : β} {m1 m2 : List (Nat × β)}
    (h : List.lookup k m1 = some v) :
    List.lookup k (m1 ++ m2) = some v := by
  induction m1 with
  | nil => simp [List.lookup] at h
  | cons p rest ih =>
    cases hkp : (k == p.1) with
    | true =>
      simp only [List.lookup, hkp, List.cons_append] at h ⊢
      exact h
    | false =>
      simp only [List.lookup, hkp, List.cons_append] at h ⊢
      exact ih h

lemma lookup_append_none {β : Type} {k : Nat} {m1 m2 : List (Nat × β)}
    (h : List.lookup k m1 = none) :
    List.lookup k (m1 ++ m2) = List.lookup k m2 := by
  induction m1 with
  | nil => simp
  | cons p rest ih =>
    cases hkp : (k == p.1) with
    | true =>
      simp only [List.lookup, hkp] at h
      cases h
    | false =>
      simp only [List.lookup, hkp, List.cons_append] at h ⊢
      exact ih h

lemma lookup_um_insert_some {k v : Nat} {m : List (Nat × Nat)} (k2 v2 : Nat)
    (h : List.lookup k m = some v) :
    List.lookup k (um_insert m k2 v2) = some v := by
  unfold um_insert
  split
  · exact h
  · exact lookup_append_some h

lemma support_count_fold_lookup_frozen (θ : Nat) :
    ∀ (l : List (Nat × List (Finset Nat))) (sm : List (Nat × Nat)) (c k v : Nat),
      List.lookup k sm = some v →
      List.lookup k
        (l.foldl (fun s p =>
          (um_insert s.1 p.1 (get_support p.2),
           if θ ≤ get_support p.2 then s.2 + 1 else s.2)) (sm, c)).1 = some v := by
  intro l
  induction l with
  | nil => intro sm c k v h; exact h
  | cons q rest ih =>
    intro sm c k v h
    simp only [List.foldl_cons]
    exact ih _ _ k v (lookup_um_insert_some _ _ h)

lemma support_count_fold_lookup (θ : Nat) :
    ∀ (l : List (Nat × List (Finset Nat))) (sm : List (Nat × Nat)) (c : Nat),
      ((l.map Prod.fst).Nodup) →
      (∀ p ∈ l, List.lookup p.1 sm = none) →
      ∀ p ∈ l,
        List.lookup p.1
          (l.foldl (fun s p =>
            (um_insert s.1 p.1 (get_support p.2),
             if θ ≤ get_support p.2 then s.2 + 1 else s.2)) (sm, c)).1
          = some (get_support p.2) := by
  intro l
  induction l with
  | nil => intro sm c _ _ p hp; cases hp
  | cons q rest ih =>
    intro sm c hnd hfresh p hp
    have hqsm : List.lookup q.1 sm = none := hfresh q (List.mem_cons_self _ _)
    have hstep : um_insert sm q.1 (get_support q.2) = sm ++ [(q.1, get_support q.2)] := by
      unfold um_insert
      simp [hqsm]
    simp only [List.foldl_cons, hstep]
    rw [List.map_cons] at hnd
    have hndp := List.nodup_cons.mp hnd
    have hndr : ((rest.map Prod.fst).Nodup) := hndp.2
    have hqnotin : q.1 ∉ rest.map Prod.fst := hndp.1
    rcases List.mem_cons.mp hp with rfl | hpr
    · have hbase : List.lookup p.1 (sm ++ [(p.1, get_support p.2)]) = some (get_support p.2) := by
        rw [lookup_append_none hqsm]
        simp [List.lookup]
      exact support_count_fold_lookup_frozen θ rest _ _ _ _ hbase
    · have hfresh2 : ∀ r ∈ rest, List.lookup r.1 (sm ++ [(q.1, get_support q.2)]) = none := by
        intro r hr
        rw [lookup_append_none (hfresh r (List.mem_cons_of_mem _ hr))]
        have hne : r.1 ≠ q.1 := by
          intro hcontra
          exact hqnotin (List.mem_map.mpr ⟨r, hr, hcontra⟩)
        have hb : (r.1 == q.1) = false := beq_eq_false_iff_ne.mpr hne
        simp [List.lookup, hb]
      exact ih _ _ hndr hfresh2 p hpr

lemma support_count_fold_snd (θ : Nat) :
    ∀ (l : List (Nat × List (Finset Nat))) (sm : List (Nat × Nat)) (c : Nat),
      (l.foldl (fun s p =>
        (um_insert s.1 p.1 (get_support p.2),
         if θ ≤ get_support p.2 then s.2 + 1 else s.2)) (sm, c)).2
        = c + l.countP (fun p => decide (θ ≤ get_support p.2)) := by
  intro l
  induction l with
  | nil => intro sm c; simp
  | cons q rest ih =>
    intro sm c
    simp only [List.foldl_cons, List.countP_cons]
    rw [ih]
    by_cases h : θ ≤ get_support q.2 <;> (simp [h]; try omega)

/-- C2: for a non-empty per-slot domain vector (all slot cardinalities in
unsigned range), get_support returns exactly the minimum slot cardinality,
and support_count records that value in the support map and counts the
pattern as frequent exactly when it reaches the threshold. -/
theorem c2_domain_support :
    (∀ doms : List (Finset Nat), doms ≠ [] →
       (∀ s ∈ doms, s.card ≤ 4294967295) →
       ((∃ s ∈ doms, get_support doms = s.card)
        ∧ ∀ s ∈ doms, get_support doms ≤ s.card))
    ∧ (∀ (θ : Nat) (cg_map : List (Nat × List (Finset Nat))),
        ((cg_map.map Prod.fst).Nodup) →
        ((∀ p ∈ cg_map,
            List.lookup p.1 (support_count θ cg_map []).1 = some (get_support p.2))
         ∧ (support_count θ cg_map []).2
            = cg_map.countP (fun p => decide (θ ≤ get_support p.2)))) := by
  constructor
  · intro doms hne hcard
    have hmin : get_support doms = (doms.map Finset.card).foldl Nat.min 4294967295 := by
      unfold get_support
      exact get_support_foldl_min doms 4294967295
    have hle : ∀ s ∈ doms, get_support doms ≤ s.card := by
      intro s hs
      rw [hmin]
      exact foldl_min_le_mem _ _ _ (List.mem_map.mpr ⟨s, hs, rfl⟩)
    refine ⟨?_, hle⟩
    rcases foldl_min_mem (doms.map Finset.card) 4294967295 with h | h
    · rcases doms with _ | ⟨s0, rest⟩
      · exact absurd rfl hne
      · refine ⟨s0, List.mem_cons_self _ _, ?_⟩
        have h1 := hle s0 (List.mem_cons_self _ _)
        have h2 := hcard s0 (List.mem_cons_self _ _)
        rw [hmin] at h1 ⊢
        omega
    · rcases List.mem_map.mp h with ⟨s, hs, hcardEq⟩
      exact ⟨s, hs, by rw [hmin, hcardEq]⟩
  · intro θ cg_map hnd
    constructor
    · exact support_count_fold_lookup θ cg_map [] 0 hnd (by intro p _; rfl)
    · simpa [support_count] using support_count_fold_snd θ cg_map [] 0

/-- Sample domain vector for the C2 witness. -/
def c2doms : List (Finset Nat) := [{0, 1}, {2}]

/-- Sample canonical map for the C2 witness. -/
def c2cg : List (Nat × List (Finset Nat)) := [(5, c2doms), (9, [{3}])]

/-- Witness for C2 at a concrete canonical map with two patterns. -/
theorem c2_domain_support_witness :
    (c2doms ≠ []
     ∧ (∀ s ∈ c2doms, s.card ≤ 4294967295)
     ∧ (c2cg.map Prod.fst).Nodup)
    ∧ ((∃ s ∈ c2doms, get_support c2doms = s.card)
        ∧ ∀ s ∈ c2doms, get_support c2doms ≤ s.card)
    ∧ ((∀ p ∈ c2cg,
          List.lookup p.1 (support_count 1 c2cg []).1 = some (get_support p.2))
        ∧ (support_count 1 c2cg []).2
           = c2cg.countP (fun p => decide (1 ≤ get_support p.2))) :=
  ⟨⟨by decide, by decide, by decide⟩,
   c2_domain_support.1 c2doms (by decide) (by decide),
   c2_domain_support.2 1 c2cg (by decide)⟩

/-- C10: get_support of an empty domain vector is 0xFFFFFFFF, so
support_count classifies such a pattern as frequent at every unsigned
threshold (instead of giving it support zero). -/
theorem c10_empty_domains :
    get_support [] = 4294967295
    ∧ ∀ (θ pid : Nat), θ ≤ 4294967295 →
        (support_count θ [(pid, ([] : List (Finset Nat)))] []).2 = 1 := by
  constructor
  · rfl
  · intro θ pid hθ
    have h : get_support ([] : List (Finset Nat)) = 4294967295 := rfl
    simp only [support_count, List.foldl_cons, List.foldl_nil, h]
    rw [if_pos hθ]

/-- Witness for C10 at threshold 4294967295 (the largest unsigned value). -/
theorem c10_empty_domains_witness :
    (4294967295 : Nat) ≤ 4294967295
    ∧ (support_count 4294967295 [(7, ([] : List (Finset Nat)))] []).2 = 1 :=
  ⟨by decide, c10_empty_domains.2 4294967295 7 (by decide)⟩

/-! ### Edge-embedding automorphism check (miner.h is_automorphism / compare) -/

/-- Reinterpretation of a 32-bit unsigned value as a signed int, as the
implicit conversion in `int cmp = unsigned - unsigned` performs on the
two's-complement targets this code runs on. -/
def toInt32 (n : Nat) : Int :=
  if n % 4294967296 < 2147483648 then ((n % 4294967296 : Nat) : Int)
  else ((n % 4294967296 : Nat) : Int) - 4294967296

/-- Unsigned 32-bit subtraction reinterpreted as int, the arithmetic done
by Miner::compare on VertexId operands. -/
def usub32 (x y : Nat) : Int :=
  toInt32 ((x % 4294967296 + (4294967296 - y % 4294967296)) % 4294967296)

/-- Miner::swap from miner.h: normalize an edge pair so the smaller
endpoint comes first. -/
def eswap (p : Nat × Nat) : Nat × Nat :=
  if p.2 < p.1 then (p.2, p.1) else p

/-- Miner::compare from miner.h: normalize both edges with swap, then
compare lexicographically by unsigned subtraction cast to int. -/
def ecompare (a b : Nat × Nat) : Int :=
  let a2 := eswap a
  let b2 := eswap b
  if a2.1 = b2.1 then usub32 a2.2 b2.2 else usub32 a2.1 b2.1

/-- Miner::getEdge from miner.h: the embedding edge at `index` runs from
the vertex at the element's history index to the vertex at `index`. -/
def getEdgeAt (emb : EdgeEmbedding) (index : Nat) : Nat × Nat :=
  (emb.get_vertex (emb.get_history index), emb.get_vertex index)

/-- Miner::is_automorphism from miner.h: reject when the candidate dst
precedes the first vertex, closes a history self-loop, re-adds an existing
vertex in descending direction, or compares less-or-equal to a later
embedding edge. -/
def is_automorphism (emb : EdgeEmbedding) (history : Nat) (src dst : Nat)
    (vertex_existed : Bool) : Bool :=
  if dst < emb.get_vertex 0 then true
  else if dst = emb.get_vertex (emb.get_history history) then true
  else if vertex_existed && decide (dst < src) then true
  else
    (List.range' (history + 1) (emb.size - (history + 1))).any
      (fun index => decide (ecompare (src, dst) (getEdgeAt emb index) ≤ 0))

/-- Normalized lexicographic less-or-equal on edges, the order realized by
Miner::compare when both endpoints are in signed-positive range. -/
def edgeLe (a b : Nat × Nat) : Prop :=
  min a.1 a.2 < min b.1 b.2
  ∨ (min a.1 a.2 = min b.1 b.2 ∧ max a.1 a.2 ≤ max b.1 b.2)

instance edgeLeDecidable (a b : Nat × Nat) : Decidable (edgeLe a b) := by
  unfold edgeLe
  infer_instance

lemma usub32_le_zero {a b : Nat} (ha : a < 2147483648) (hb : b < 2147483648) :
    usub32 a b ≤ 0 ↔ a ≤ b := by
  unfold usub32 toInt32
  split <;> omega

lemma eswap_eq_minmax (p : Nat × Nat) :
    eswap p = (min p.1 p.2, max p.1 p.2) := by
  rcases p with ⟨x, y⟩
  unfold eswap
  by_cases h : y < x
  · rw [if_pos h]
    have h1 : min x y = y := min_eq_right (le_of_lt h)
    have h2 : max x y = x := max_eq_left (le_of_lt h)
    rw [h1, h2]
  · rw [if_neg h]
    have h1 : min x y = x := min_eq_left (le_of_not_lt h)
    have h2 : max x y = y := max_eq_right (le_of_not_lt h)
    rw [h1, h2]

lemma ecompare_le_zero {a b : Nat × Nat}
    (ha1 : a.1 < 2147483648) (ha2 : a.2 < 2147483648)
    (hb1 : b.1 < 2147483648) (hb2 : b.2 < 2147483648) :
    ecompare a b ≤ 0 ↔ edgeLe a b := by
  have hcore : ecompare a b
      = (if min a.1 a.2 = min b.1 b.2
         then usub32 (max a.1 a.2) (max b.1 b.2)
         else usub32 (min a.1 a.2) (min b.1 b.2)) := by
    unfold ecompare
    rw [eswap_eq_minmax, eswap_eq_minmax]
  rw [hcore]
  unfold edgeLe
  have hmina : min a.1 a.2 < 2147483648 := lt_of_le_of_lt (min_le_left _ _) ha1
  have hminb : min b.1 b.2 < 2147483648 := lt_of_le_of_lt (min_le_left _ _) hb1
  have hmaxa : max a.1 a.2 < 2147483648 := max_lt ha1 ha2
  have hmaxb : max b.1 b.2 < 2147483648 := max_lt hb1 hb2
  split
  · rename_i heq
    rw [usub32_le_zero hmaxa hmaxb]
    constructor
    · intro h
      exact Or.inr ⟨heq, h⟩
    · rintro (h | ⟨_, h⟩)
      · rw [heq] at h
        exact absurd h (lt_irrefl _)
      · exact h
  · rename_i hne
    rw [usub32_le_zero hmina hminb]
    constructor
    · intro h
      exact Or.inl (lt_of_le_of_ne h hne)
    · rintro (h | ⟨h, _⟩)
      · exact le_of_lt h
      · exact absurd h hne

lemma get_vertex_lt {emb : EdgeEmbedding} (bound : Nat)
    (hv : ∀ el ∈ emb.elems, el.vid < bound) (hpos : 0 < bound) (i : Nat) :
    emb.get_vertex i < bound := by
  unfold EdgeEmbedding.get_vertex
  rcases h : emb.elems.get? i with _ | el
  · rw [List.getD_eq_getElem?_getD, ← List.get?_eq_getElem?, h]
    simpa using hpos
  · rw [List.getD_eq_getElem?_getD, ← List.get?_eq_getElem?, h]
    simpa using hv el (List.get?_mem h)

/-- C1 (amended): is_automorphism rejects a candidate extension exactly
when the destination precedes the embedding's first vertex, or closes the
self-loop reached through the candidate's own history chain, or re-adds an
existing vertex with src > dst, or the candidate edge compares
less-or-equal to some embedding edge strictly after the extension point
under the normalize-to-(min,max)-then-lexicographic order.  Vertex ids are
assumed to fit in the signed-positive range of the int arithmetic that
Miner::compare performs. -/
theorem c1_is_automorphism_iff (emb : EdgeEmbedding) (history src dst : Nat)
    (ve : Bool)
    (hs : src < 2147483648) (hd : dst < 2147483648)
    (hv : ∀ el ∈ emb.elems, el.vid < 2147483648) :
    is_automorphism emb history src dst ve = true ↔
      (dst < emb.get_vertex 0
       ∨ dst = emb.get_vertex (emb.get_history history)
       ∨ (ve = true ∧ src > dst)
       ∨ ∃ index, history + 1 ≤ index ∧ index < emb.size
           ∧ edgeLe (src, dst) (getEdgeAt emb index)) := by
  have hvb : ∀ i, emb.get_vertex i < 2147483648 :=
    get_vertex_lt 2147483648 hv (by omega)
  unfold is_automorphism
  by_cases h1 : dst < emb.get_vertex 0
  · simp [h1]
  · rw [if_neg h1]
    by_cases h2 : dst = emb.get_vertex (emb.get_history history)
    · simp [h1, h2]
    · rw [if_neg h2]
      by_cases h3 : ve = true ∧ dst < src
      · have : (ve && decide (dst < src)) = true := by
          simp [h3.1, h3.2]
        simp [this, h1, h2]
        exact Or.inl ⟨h3.1, h3.2⟩
      · have hb3 : (ve && decide (dst < src)) = false := by
          rcases ve with _ | _
          · simp
          · simp only [Bool.true_and, decide_eq_false_iff_not]
            intro hlt
            exact h3 ⟨rfl, hlt⟩
        rw [hb3]
        simp only [Bool.false_eq_true, if_false]
        rw [List.any_eq_true]
        constructor
        · rintro ⟨index, hmem, hcmp⟩
          rw [List.mem_range'_1] at hmem
          rw [decide_eq_true_iff] at hcmp
          have hcmp2 : edgeLe (src, dst) (getEdgeAt emb index) := by
            rw [← ecompare_le_zero hs hd (hvb _) (hvb _)]
            exact hcmp
          refine Or.inr (Or.inr (Or.inr ⟨index, hmem.1, ?_, hcmp2⟩))
          omega
        · intro h
          rcases h with h | h | h | ⟨index, hge, hlt, hle⟩
          · exact absurd h h1
          · exact absurd h h2
          · exact absurd ⟨h.1, h.2⟩ h3
          · refine ⟨index, ?_, ?_⟩
            · rw [List.mem_range'_1]
              omega
            · rw [decide_eq_true_iff]
              rw [ecompare_le_zero hs hd (hvb _) (hvb _)]
              exact hle

/-- Witness for the amended C1 at a concrete embedding where the candidate
closes a descending re-addition. -/
theorem c1_is_automorphism_iff_witness :
    ((2 : Nat) < 2147483648 ∧ (0 : Nat) < 2147483648
     ∧ ∀ el ∈ (⟨[⟨1, 0⟩, ⟨2, 0⟩], 0⟩ : EdgeEmbedding).elems, el.vid < 2147483648)
    ∧ (is_automorphism ⟨[⟨1, 0⟩, ⟨2, 0⟩], 0⟩ 1 2 0 false = true ↔
        (0 < (⟨[⟨1, 0⟩, ⟨2, 0⟩], 0⟩ : EdgeEmbedding).get_vertex 0
         ∨ 0 = (⟨[⟨1, 0⟩, ⟨2, 0⟩], 0⟩ : EdgeEmbedding).get_vertex
              ((⟨[⟨1, 0⟩, ⟨2, 0⟩], 0⟩ : EdgeEmbedding).get_history 1)
         ∨ (false = true ∧ 2 > 0)
         ∨ ∃ index, 1 + 1 ≤ index ∧ index < (⟨[⟨1, 0⟩, ⟨2, 0⟩], 0⟩ : EdgeEmbedding).size
             ∧ edgeLe (2, 0) (getEdgeAt ⟨[⟨1, 0⟩, ⟨2, 0⟩], 0⟩ index))) :=
  ⟨⟨by decide, by decide, by decide⟩,
   c1_is_automorphism_iff ⟨[⟨1, 0⟩, ⟨2, 0⟩], 0⟩ 1 2 0 false
     (by decide) (by decide) (by decide)⟩

/-- Counterexample to C1 as stated: at the embedding (1)-(2),(1)-(3) with
extension point 1 and candidate edge (2,5), the later edge (1,3) compares
less-or-equal to the candidate under the normalized order (which the claim
says forces rejection), none of the other three rejection conditions holds,
and yet is_automorphism accepts the candidate. -/
theorem c1_claim_counterexample :
    is_automorphism ⟨[⟨1, 0⟩, ⟨2, 0⟩, ⟨3, 0⟩], 0⟩ 1 2 5 false = false
    ∧ (1 + 1 ≤ 2 ∧ 2 < (⟨[⟨1, 0⟩, ⟨2, 0⟩, ⟨3, 0⟩], 0⟩ : EdgeEmbedding).size
       ∧ edgeLe (getEdgeAt ⟨[⟨1, 0⟩, ⟨2, 0⟩, ⟨3, 0⟩], 0⟩ 2) (2, 5))
    ∧ ¬ (5 < (⟨[⟨1, 0⟩, ⟨2, 0⟩, ⟨3, 0⟩], 0⟩ : EdgeEmbedding).get_vertex 0)
    ∧ ¬ (5 = (⟨[⟨1, 0⟩, ⟨2, 0⟩, ⟨3, 0⟩], 0⟩ : EdgeEmbedding).get_vertex
           ((⟨[⟨1, 0⟩, ⟨2, 0⟩, ⟨3, 0⟩], 0⟩ : EdgeEmbedding).get_history 1))
    ∧ ¬ (false = true ∧ 2 > 5) := by
  decide

/-! ### Threshold filtering through the Id Map (miner.h filter / filter_each,
UintMap overloads).  UintMap.at on a missing key throws; the model returns
an error value that propagates. -/

/-- UintMap::at — lookup that fails (throws std::out_of_range) on a
missing key. -/
def map_at (m : List (Nat × Nat)) (k : Nat) : Except Unit Nat :=
  match List.lookup k m with
  | some v => Except.ok v
  | none => Except.error ()

/-- Miner::filter (UintMap overload) from miner.h: for each embedding in
order, resolve its quick-pattern id to a canonical-pattern id, look up that
pattern's support, and keep the embedding iff the support reaches the
threshold.  A failing .at lookup propagates as the thrown exception. -/
def filter_fsm (threshold : Nat) (id_map support_map : List (Nat × Nat)) :
    List EdgeEmbedding → Except Unit (List EdgeEmbedding)
  | [] => Except.ok []
  | e :: rest =>
    match map_at id_map e.get_qpid with
    | Except.error u => Except.error u
    | Except.ok cg_id =>
      match map_at support_map cg_id with
      | Except.error u => Except.error u
      | Except.ok s =>
        match filter_fsm threshold id_map support_map rest with
        | Except.error u => Except.error u
        | Except.ok tail => Except.ok (if threshold ≤ s then e :: tail else tail)

/-- Miner::filter_each (UintMap overload) from miner.h: one embedding,
appended to the output queue iff its pattern's support reaches the
threshold. -/
def filter_each_fsm (threshold : Nat) (id_map support_map : List (Nat × Nat))
    (e : EdgeEmbedding) (out : List EdgeEmbedding) :
    Except Unit (List EdgeEmbedding) :=
  match map_at id_map e.get_qpid with
  | Except.error u => Except.error u
  | Except.ok cg_id =>
    match map_at support_map cg_id with
    | Except.error u => Except.error u
    | Except.ok s => Except.ok (if threshold ≤ s then out ++ [e] else out)

/-- Support of an embedding's pattern as resolved through the Id Map. -/
def support_via (id_map support_map : List (Nat × Nat)) (e : EdgeEmbedding) :
    Except Unit Nat :=
  match map_at id_map e.get_qpid with
  | Except.error u => Except.error u
  | Except.ok cg_id => map_at support_map cg_id

/-- Boolean survival predicate the filtering pass realizes. -/
def survives (threshold : Nat) (id_map support_map : List (Nat × Nat))
    (e : EdgeEmbedding) : Bool :=
  match support_via id_map support_map e with
  | Except.ok s => decide (threshold ≤ s)
  | Except.error _ => false

/-- C3: whenever the queue filtering pass completes, its output is exactly
the input embeddings whose pattern support (quick-pattern id resolved via
the Id Map, then looked up in the support map) reaches the threshold —
an embedding survives iff frequent, and non-frequent ones are dropped; and
filter_each pushes a single embedding onto the output queue under exactly
the same condition. -/
theorem c3_filter_by_support (threshold : Nat)
    (id_map support_map : List (Nat × Nat)) (q out : List EdgeEmbedding)
    (h : filter_fsm threshold id_map support_map q = Except.ok out) :
    out = q.filter (survives threshold id_map support_map)
    ∧ (∀ (e : EdgeEmbedding) (out0 : List EdgeEmbedding) (s : Nat),
        support_via id_map support_map e = Except.ok s →
        filter_each_fsm threshold id_map support_map e out0
          = Except.ok (if threshold ≤ s then out0 ++ [e] else out0)) := by
  constructor
  · induction q generalizing out with
    | nil =>
      simp only [filter_fsm] at h
      cases h
      rfl
    | cons e rest ih =>
      simp only [filter_fsm] at h
      split at h
      · exact Except.noConfusion h
      · rename_i cg_id h1
        split at h
        · exact Except.noConfusion h
        · rename_i s h2
          split at h
          · exact Except.noConfusion h
          · rename_i tail h3
            have hout := Except.ok.inj h
            have hsv : survives threshold id_map support_map e
                = decide (threshold ≤ s) := by
              unfold survives support_via
              rw [h1]
              show (match map_at support_map cg_id with
                    | Except.ok s2 => decide (threshold ≤ s2)
                    | Except.error _ => false) = decide (threshold ≤ s)
              rw [h2]
            rw [← hout, List.filter_cons, hsv, ← ih tail h3]
            by_cases hts : threshold ≤ s
            · simp [hts]
            · simp [hts]
  · intro e out0 s hsv
    unfold filter_each_fsm
    unfold support_via at hsv
    split at hsv
    · exact Except.noConfusion hsv
    · rename_i cg_id h1
      rw [hsv]

/-- Witness for C3 at a concrete queue of two embeddings, one frequent and
one not. -/
theorem c3_filter_by_support_witness :
    filter_fsm 2 [(7, 1), (8, 4)] [(1, 3), (4, 1)]
        [⟨[], 7⟩, ⟨[], 8⟩] = Except.ok [⟨[], 7⟩]
    ∧ ([(⟨[], 7⟩ : EdgeEmbedding)]
        = [⟨[], 7⟩, ⟨[], 8⟩].filter (survives 2 [(7, 1), (8, 4)] [(1, 3), (4, 1)])
       ∧ (∀ (e : EdgeEmbedding) (out0 : List EdgeEmbedding) (s : Nat),
           support_via [(7, 1), (8, 4)] [(1, 3), (4, 1)] e = Except.ok s →
           filter_each_fsm 2 [(7, 1), (8, 4)] [(1, 3), (4, 1)] e out0
             = Except.ok (if 2 ≤ s then out0 ++ [e] else out0))) :=
  ⟨by rfl, c3_filter_by_support 2 [(7, 1), (8, 4)] [(1, 3), (4, 1)]
      [⟨[], 7⟩, ⟨[], 8⟩] [⟨[], 7⟩] (by rfl)⟩

/-! ### filter_each against the canonical maps (miner.h CgMapFreq /
CgMapDomain overloads).  In both, the assert guarding a missing pattern is
commented out and the lookup is std::unordered_map::operator[], which
default-inserts a value-initialized entry for an absent key.  The
canonical pattern of the embedding (the oracle result) is passed as its
integer key. -/

/-- Miner::filter_each (CgMapFreq overload) from miner.h: operator[] on the
canonical map (default-inserting 0 when the pattern is absent), then push
the embedding iff the looked-up count reaches the threshold. -/
def filter_each_freq (threshold : Nat) (emb : EdgeEmbedding) (key : Nat)
    (cg_map : List (Nat × Nat)) (out : List EdgeEmbedding) :
    List (Nat × Nat) × List EdgeEmbedding :=
  match List.lookup key cg_map with
  | some v => (cg_map, if threshold ≤ v then out ++ [emb] else out)
  | none => (cg_map ++ [(key, 0)], if threshold ≤ 0 then out ++ [emb] else out)

/-- Miner::filter_each (CgMapDomain overload) from miner.h: operator[] on
the canonical map (default-inserting an empty domain vector when the
pattern is absent), scan the slots for one below the threshold, and push
the embedding iff none is found. -/
def filter_each_dom (threshold : Nat) (emb : EdgeEmbedding) (key : Nat)
    (cg_map : List (Nat × List (Finset Nat))) (out : List EdgeEmbedding) :
    List (Nat × List (Finset Nat)) × List EdgeEmbedding :=
  match List.lookup key cg_map with
  | some v =>
    (cg_map,
     if (List.range v.length).any (fun i => decide ((v.getD i ∅).card < threshold))
     then out else out ++ [emb])
  | none =>
    (cg_map ++ [(key, [])],
     if (List.range (List.length ([] : List (Finset Nat)))).any
          (fun i => decide (((([] : List (Finset Nat))).getD i ∅).card < threshold))
     then out else out ++ [emb])

/-- C5 is violated by the code: applying filter_each to an embedding whose
canonical pattern is absent from the map does not abort.  The domain
variant silently default-inserts an empty entry (mutating the map) and
classifies the embedding as frequent, pushing it to the output queue even
at threshold 2; the frequency variant silently default-inserts count 0 and
classifies the embedding through that 0.  Evaluation at the failing input:
an empty canonical map, canonical key 0, threshold 2. -/
theorem c5_filter_each_no_abort :
    filter_each_dom 2 ⟨[⟨1, 0⟩], 0⟩ 0 [] [] = ([(0, [])], [⟨[⟨1, 0⟩], 0⟩])
    ∧ filter_each_freq 2 ⟨[⟨1, 0⟩], 0⟩ 0 [] [] = ([(0, 0)], []) := by
  constructor
  · rfl
  · rfl

/-! ### Vertex-induced automorphism filter (miner.h
is_vertexInduced_automorphism).  The commented-out set_connected call in
the idx == 0 block leaves `return false` guarded by the connectivity test,
so a disconnected candidate at idx == 0 falls through to the generic
first-connection scan; the translation reproduces that control flow. -/

/-- Miner::is_vertexInduced_automorphism from miner.h. -/
def is_vertexInduced_automorphism (g : SGraph) (emb : List Nat)
    (idx : Nat) (src dst : Nat) : Bool :=
  let n := emb.length
  if dst ≤ vget emb 0 then true
  else if (List.range' 1 (n - 1)).any (fun i => decide (dst = vget emb i)) then true
  else if idx = 0 && (List.range' 1 (n - 1)).any (fun _ => decide (dst < vget emb 1)) then
    true
  else if idx = 0 && is_connected g (vget emb 1) dst then false
  else if idx = 1 then
    if is_connected g (vget emb 0) dst then true
    else if (List.range' 2 (n - 2)).any (fun _ => decide (dst < vget emb 1)) then true
    else false
  else
    let first := ((List.range n).find?
        (fun i => is_connected g (vget emb i) dst)).getD (n - 1)
    (List.range' (first + 1) (n - (first + 1))).any (fun i => decide (dst < vget emb i))

/-- C8: the vertex-induced filter rejects whenever the candidate is at most
the embedding's first vertex, or already appears at some position of the
embedding. -/
theorem c8_vertex_induced_rejects (g : SGraph) (emb : List Nat)
    (idx src dst : Nat)
    (h : dst ≤ vget emb 0 ∨ ∃ i, i < emb.length ∧ dst = vget emb i) :
    is_vertexInduced_automorphism g emb idx src dst = true := by
  unfold is_vertexInduced_automorphism
  by_cases h0 : dst ≤ vget emb 0
  · simp [h0]
  · rw [if_neg h0]
    rcases h with h | ⟨i, hi, hdst⟩
    · exact absurd h h0
    · have hine : i ≠ 0 := by
        intro hz
        rw [hz] at hdst
        exact h0 (le_of_eq hdst)
      have hmem : i ∈ List.range' 1 (emb.length - 1) := by
        rw [List.mem_range'_1]
        omega
      have hany : (List.range' 1 (emb.length - 1)).any
          (fun i => decide (dst = vget emb i)) = true :=
        List.any_eq_true.mpr ⟨i, hmem, decide_eq_true hdst⟩
      rw [hany]
      rfl

/-- Witness for C8: candidate 7 already appears at position 1 of the
embedding (5, 7). -/
theorem c8_vertex_induced_rejects_witness :
    ((7 : Nat) ≤ vget [5, 7] 0 ∨ ∃ i, i < [5, 7].length ∧ 7 = vget [5, 7] i)
    ∧ is_vertexInduced_automorphism ⟨fun _ => []⟩ [5, 7] 0 5 7 = true :=
  ⟨Or.inr ⟨1, by decide, by decide⟩,
   c8_vertex_induced_rejects ⟨fun _ => []⟩ [5, 7] 0 5 7
     (Or.inr ⟨1, by decide, by decide⟩)⟩

/-! ### Extension generators (miner.h extend_edge, extend_vertex_motif,
extend_vertex, extend_vertex_clique).  The C++ loops mutate the embedding
by push_back / pop_back and append to the output queue; the model threads
the embedding and the queue (and, for the clique variant, the accumulator)
through folds whose per-candidate steps are named below, one per loop
body.  The graph is a read-only parameter throughout. -/

/-- Loop body of Miner::extend_vertex: emit when the candidate exceeds the
vertex at position n-1, via push_back / queue push / pop_back. -/
def ev_step (n : Nat) (t : List Nat × List (List Nat)) (dst : Nat) :
    List Nat × List (List Nat) :=
  if vget t.1 (n - 1) < dst then ((t.1 ++ [dst]).dropLast, t.2 ++ [t.1 ++ [dst]])
  else t

/-- Miner::extend_vertex from miner.h. -/
def extend_vertex (g : SGraph) (emb : List Nat) (queue : List (List Nat)) :
    List Nat × List (List Nat) :=
  (List.range emb.length).foldl
    (fun s i => (g.adj (vget s.1 i)).foldl (ev_step emb.length) s)
    (emb, queue)

/-- Loop body of Miner::extend_vertex_motif: emit unless the vertex-induced
automorphism filter rejects the candidate. -/
def motif_step (g : SGraph) (i src : Nat) (t : List Nat × List (List Nat))
    (dst : Nat) : List Nat × List (List Nat) :=
  if is_vertexInduced_automorphism g t.1 i src dst then t
  else ((t.1 ++ [dst]).dropLast, t.2 ++ [t.1 ++ [dst]])

/-- Miner::extend_vertex_motif from miner.h. -/
def extend_vertex_motif (g : SGraph) (emb : List Nat)
    (queue : List (List Nat)) : List Nat × List (List Nat) :=
  (List.range emb.length).foldl
    (fun s i => (g.adj (vget s.1 i)).foldl (motif_step g i (vget s.1 i)) s)
    (emb, queue)

/-- Loop body of Miner::extend_vertex_clique: for a candidate above the
last vertex that is connected to the earlier embedding vertices, bump the
accumulator and (when need_update) emit the extended embedding. -/
def clique_step (g : SGraph) (src : Nat) (need_update : Bool)
    (t : List Nat × List (List Nat) × Nat) (dst : Nat) :
    List Nat × List (List Nat) × Nat :=
  if src < dst then
    if is_all_connected g dst t.1 then
      if need_update then
        ((t.1 ++ [dst]).dropLast, t.2.1 ++ [t.1 ++ [dst]], t.2.2 + 1)
      else (t.1, t.2.1, t.2.2 + 1)
    else t
  else t

/-- Miner::extend_vertex_clique from miner.h: candidates are the edges of
the embedding's last vertex. -/
def extend_vertex_clique (g : SGraph) (emb : List Nat)
    (queue : List (List Nat)) (num : Nat) (need_update : Bool) :
    List Nat × List (List Nat) × Nat :=
  (g.adj (vget emb (emb.length - 1))).foldl
    (clique_step g (vget emb (emb.length - 1)) need_update)
    (emb, queue, num)

/-- Loop body of Miner::extend_edge: vs is the vertex multiset of the base
embedding (computed once at entry), from which num_vertices and
vertex_existed are derived; emit when the size bound holds and the
automorphism filter accepts. -/
def edge_step (g : SGraph) (max_size : Nat) (vs : List Nat) (i id : Nat)
    (t : EdgeEmbedding × List EdgeEmbedding) (dst : Nat) :
    EdgeEmbedding × List EdgeEmbedding :=
  if (if vs.contains dst then vs.dedup.length else vs.dedup.length + 1) ≤ max_size
      && ! is_automorphism t.1 i id dst (vs.contains dst) then
    ((t.1.push_back ⟨dst, i⟩).pop_back, t.2 ++ [t.1.push_back ⟨dst, i⟩])
  else t

/-- Miner::extend_edge from miner.h: each distinct embedding vertex (the
`set` dedup skips positions whose vertex already occurred earlier) is
expanded along its edges. -/
def extend_edge (g : SGraph) (max_size : Nat) (emb : EdgeEmbedding)
    (queue : List EdgeEmbedding) : EdgeEmbedding × List EdgeEmbedding :=
  (List.range emb.size).foldl
    (fun s i =>
      if (List.range i).any (fun j => decide (s.1.get_vertex j = s.1.get_vertex i))
      then s
      else (g.adj (s.1.get_vertex i)).foldl
        (edge_step g max_size ((List.range emb.size).map emb.get_vertex) i
          (s.1.get_vertex i)) s)
    (emb, queue)

lemma foldl_frame {σ γ α : Type} (step : σ × List γ → α → σ × List γ)
    (δ : σ → α → List γ)
    (h : ∀ (e : σ) (q : List γ) (x : α), step (e, q) x = (e, q ++ δ e x)) :
    ∀ (l : List α) (e : σ) (q : List γ),
      l.foldl step (e, q) = (e, q ++ (l.map (δ e)).join) := by
  intro l
  induction l with
  | nil => intro e q; simp
  | cons x xs ih =>
    intro e q
    simp only [List.foldl_cons, h, List.map_cons, List.join_cons]
    rw [ih, List.append_assoc]

lemma foldl_frame3 {σ γ α : Type} (step : σ × List γ × Nat → α → σ × List γ × Nat)
    (δ : σ → α → List γ) (ν : σ → α → Nat)
    (h : ∀ (e : σ) (q : List γ) (c : Nat) (x : α),
      step (e, q, c) x = (e, q ++ δ e x, c + ν e x)) :
    ∀ (l : List α) (e : σ) (q : List γ) (c : Nat),
      l.foldl step (e, q, c) = (e, q ++ (l.map (δ e)).join, c + (l.map (ν e)).sum) := by
  intro l
  induction l with
  | nil => intro e q c; simp
  | cons x xs ih =>
    intro e q c
    simp only [List.foldl_cons, h, List.map_cons, List.join_cons, List.sum_cons]
    rw [ih, List.append_assoc]
    congr 2
    omega

/-- Per-candidate emission of extend_vertex. -/
def ev_delta (n : Nat) (e : List Nat) (dst : Nat) : List (List Nat) :=
  if vget e (n - 1) < dst then [e ++ [dst]] else []

lemma ev_step_frame (n : Nat) :
    ∀ (e : List Nat) (q : List (List Nat)) (dst : Nat),
      ev_step n (e, q) dst = (e, q ++ ev_delta n e dst) := by
  intro e q dst
  unfold ev_step ev_delta
  split
  · simp [List.dropLast_concat]
  · simp

lemma extend_vertex_spec (g : SGraph) (emb : List Nat) (queue : List (List Nat)) :
    extend_vertex g emb queue
      = (emb, queue ++ ((List.range emb.length).map
          (fun i => ((g.adj (vget emb i)).map (ev_delta emb.length emb)).join)).join) := by
  unfold extend_vertex
  exact foldl_frame _ (fun e i => ((g.adj (vget e i)).map (ev_delta emb.length e)).join)
    (fun e q i => foldl_frame (ev_step emb.length) (ev_delta emb.length)
      (ev_step_frame emb.length) (g.adj (vget e i)) e q)
    (List.range emb.length) emb queue

/-- Per-candidate emission of extend_vertex_motif. -/
def motif_delta (g : SGraph) (i src : Nat) (e : List Nat) (dst : Nat) :
    List (List Nat) :=
  if is_vertexInduced_automorphism g e i src dst then [] else [e ++ [dst]]

lemma motif_step_frame (g : SGraph) (i src : Nat) :
    ∀ (e : List Nat) (q : List (List Nat)) (dst : Nat),
      motif_step g i src (e, q) dst = (e, q ++ motif_delta g i src e dst) := by
  intro e q dst
  unfold motif_step motif_delta
  split
  · simp
  · simp [List.dropLast_concat]

lemma extend_vertex_motif_spec (g : SGraph) (emb : List Nat)
    (queue : List (List Nat)) :
    extend_vertex_motif g emb queue
      = (emb, queue ++ ((List.range emb.length).map
          (fun i => ((g.adj (vget emb i)).map
            (motif_delta g i (vget emb i) emb)).join)).join) := by
  unfold extend_vertex_motif
  exact foldl_frame _
    (fun e i => ((g.adj (vget e i)).map (motif_delta g i (vget e i) e)).join)
    (fun e q i => foldl_frame (motif_step g i (vget e i)) (motif_delta g i (vget e i))
      (motif_step_frame g i (vget e i)) (g.adj (vget e i)) e q)
    (List.range emb.length) emb queue

/-- Per-candidate emission of extend_vertex_clique. -/
def clique_delta (g : SGraph) (src : Nat) (need_update : Bool) (e : List Nat)
    (dst : Nat) : List (List Nat) :=
  if src < dst then
    if is_all_connected g dst e then
      if need_update then [e ++ [dst]] else []
    else []
  else []

/-- Per-candidate accumulator increment of extend_vertex_clique. -/
def clique_incr (g : SGraph) (src : Nat) (e : List Nat) (dst : Nat) : Nat :=
  if src < dst then (if is_all_connected g dst e then 1 else 0) else 0

lemma clique_step_frame (g : SGraph) (src : Nat) (need_update : Bool) :
    ∀ (e : List Nat) (q : List (List Nat)) (c : Nat) (dst : Nat),
      clique_step g src need_update (e, q, c) dst
        = (e, q ++ clique_delta g src need_update e dst,
           c + clique_incr g src e dst) := by
  intro e q c dst
  unfold clique_step clique_delta clique_incr
  by_cases h1 : src < dst
  · rw [if_pos h1, if_pos h1, if_pos h1]
    by_cases h2 : is_all_connected g dst e = true
    · rw [if_pos h2, if_pos h2, if_pos h2]
      rcases need_update with _ | _
      · simp
      · simp [List.dropLast_concat]
    · rw [if_neg h2, if_neg h2, if_neg h2]
      simp
  · rw [if_neg h1, if_neg h1, if_neg h1]
    simp

lemma extend_vertex_clique_spec (g : SGraph) (emb : List Nat)
    (queue : List (List Nat)) (num : Nat) (need_update : Bool) :
    extend_vertex_clique g emb queue num need_update
      = (emb,
         queue ++ ((g.adj (vget emb (emb.length - 1))).map
           (clique_delta g (vget emb (emb.length - 1)) need_update emb)).join,
         num + ((g.adj (vget emb (emb.length - 1))).map
           (clique_incr g (vget emb (emb.length - 1)) emb)).sum) := by
  unfold extend_vertex_clique
  exact foldl_frame3 _ _ _
    (clique_step_frame g (vget emb (emb.length - 1)) need_update)
    (g.adj (vget emb (emb.length - 1))) emb queue num

/-- Per-candidate emission of extend_edge. -/
def edge_delta (max_size : Nat) (vs : List Nat) (i id : Nat)
    (e : EdgeEmbedding) (dst : Nat) : List EdgeEmbedding :=
  if (if vs.contains dst then vs.dedup.length else vs.dedup.length + 1) ≤ max_size
      && ! is_automorphism e i id dst (vs.contains dst) then
    [e.push_back ⟨dst, i⟩]
  else []

lemma pop_back_push_back (e : EdgeEmbedding) (x : EElem) :
    (e.push_back x).pop_back = e := by
  unfold EdgeEmbedding.push_back EdgeEmbedding.pop_back
  simp [List.dropLast_concat]

lemma edge_step_frame (g : SGraph) (max_size : Nat) (vs : List Nat) (i id : Nat) :
    ∀ (e : EdgeEmbedding) (q : List EdgeEmbedding) (dst : Nat),
      edge_step g max_size vs i id (e, q) dst
        = (e, q ++ edge_delta max_size vs i id e dst) := by
  intro e q dst
  unfold edge_step edge_delta
  split <;> (split <;> simp [pop_back_push_back])

/-- Per-position emission of extend_edge: positions whose vertex already
occurred earlier in the embedding are skipped. -/
def edge_delta_outer (g : SGraph) (max_size : Nat) (vs : List Nat)
    (e : EdgeEmbedding) (i : Nat) : List EdgeEmbedding :=
  if (List.range i).any (fun j => decide (e.get_vertex j = e.get_vertex i)) then []
  else ((g.adj (e.get_vertex i)).map
    (edge_delta max_size vs i (e.get_vertex i) e)).join

lemma extend_edge_spec (g : SGraph) (max_size : Nat) (emb : EdgeEmbedding)
    (queue : List EdgeEmbedding) :
    extend_edge g max_size emb queue
      = (emb, queue ++ ((List.range emb.size).map
          (edge_delta_outer g max_size ((List.range emb.size).map emb.get_vertex) emb)).join) := by
  unfold extend_edge
  refine foldl_frame _
    (edge_delta_outer g max_size ((List.range emb.size).map emb.get_vertex))
    ?_ (List.range emb.size) emb queue
  intro e q i
  unfold edge_delta_outer
  split
  · simp
  · exact foldl_frame
      (edge_step g max_size ((List.range emb.size).map emb.get_vertex) i (e.get_vertex i))
      (edge_delta max_size ((List.range emb.size).map emb.get_vertex) i (e.get_vertex i))
      (edge_step_frame g max_size _ i (e.get_vertex i)) (g.adj (e.get_vertex i)) e q

/-- C9: every extension operation restores the source embedding to its
original element sequence (each push_back is matched by a pop_back), and
its only external effect is appending extended copies to the output queue
(the suffix appended is the operation's own emission from an empty queue);
the graph is a read-only parameter of every operation in the model, never
written. -/
theorem c9_extension_frame (g : SGraph) (max_size : Nat)
    (eemb : EdgeEmbedding) (q1 : List EdgeEmbedding)
    (vemb : List Nat) (q2 : List (List Nat))
    (bemb : List Nat) (q3 : List (List Nat))
    (cemb : List Nat) (q4 : List (List Nat)) (num : Nat) (nu : Bool) :
    ((extend_edge g max_size eemb q1).1 = eemb
      ∧ (extend_edge g max_size eemb q1).2 = q1 ++ (extend_edge g max_size eemb []).2)
    ∧ ((extend_vertex_motif g vemb q2).1 = vemb
      ∧ (extend_vertex_motif g vemb q2).2 = q2 ++ (extend_vertex_motif g vemb []).2)
    ∧ ((extend_vertex g bemb q3).1 = bemb
      ∧ (extend_vertex g bemb q3).2 = q3 ++ (extend_vertex g bemb []).2)
    ∧ ((extend_vertex_clique g cemb q4 num nu).1 = cemb
      ∧ (extend_vertex_clique g cemb q4 num nu).2.1
          = q4 ++ (extend_vertex_clique g cemb [] num nu).2.1) := by
  refine ⟨⟨?_, ?_⟩, ⟨?_, ?_⟩, ⟨?_, ?_⟩, ⟨?_, ?_⟩⟩
  · rw [extend_edge_spec]
  · rw [extend_edge_spec, extend_edge_spec]
    rfl
  · rw [extend_vertex_motif_spec]
  · rw [extend_vertex_motif_spec, extend_vertex_motif_spec]
    rfl
  · rw [extend_vertex_spec]
  · rw [extend_vertex_spec, extend_vertex_spec]
    rfl
  · rw [extend_vertex_clique_spec]
  · rw [extend_vertex_clique_spec, extend_vertex_clique_spec]
    rfl

lemma is_connected_iff_mem (g : SGraph)
    (hsym : ∀ a b : Nat, a ∈ g.adj b ↔ b ∈ g.adj a) (a b : Nat) :
    is_connected g a b = true ↔ b ∈ g.adj a := by
  unfold is_connected
  split
  · exact List.elem_iff
  · rw [List.elem_iff]
    exact hsym a b

lemma is_all_connected_iff (g : SGraph)
    (hsym : ∀ a b : Nat, a ∈ g.adj b ↔ b ∈ g.adj a) (emb : List Nat) (dst : Nat)
    (hmem : dst ∈ g.adj (vget emb (emb.length - 1))) :
    is_all_connected g dst emb = true ↔ ∀ i < emb.length, dst ∈ g.adj (vget emb i) := by
  unfold is_all_connected
  rw [List.all_eq_true]
  constructor
  · intro h i hi
    by_cases hlast : i = emb.length - 1
    · rw [hlast]
      exact hmem
    · have hir : i ∈ List.range (emb.length - 1) := List.mem_range.mpr (by omega)
      exact (is_connected_iff_mem g hsym _ _).mp (by simpa using h i hir)
  · intro h i hi
    have hil : i < emb.length := by
      have := List.mem_range.mp hi
      omega
    exact (is_connected_iff_mem g hsym _ _).mpr (h i hil)

lemma join_map_ite {α β : Type} (l : List α) (p : α → Prop) [DecidablePred p]
    (f : α → β) :
    (l.map (fun x => if p x then [f x] else [])).join
      = (l.filter (fun x => decide (p x))).map f := by
  induction l with
  | nil => rfl
  | cons x xs ih => by_cases h : p x <;> simp [h, ih]

lemma sum_map_ite {α : Type} (l : List α) (p : α → Prop) [DecidablePred p] :
    (l.map (fun x => if p x then 1 else 0)).sum
      = (l.filter (fun x => decide (p x))).length := by
  induction l with
  | nil => rfl
  | cons x xs ih => by_cases h : p x <;> (simp [h, ih]; try omega)

lemma clique_delta_true (g : SGraph) (src : Nat) (e : List Nat) (dst : Nat) :
    clique_delta g src true e dst
      = if src < dst ∧ is_all_connected g dst e = true then [e ++ [dst]] else [] := by
  unfold clique_delta
  by_cases h1 : src < dst
  · by_cases h2 : is_all_connected g dst e = true
    · simp [h1, h2]
    · simp [h1, h2]
  · simp [h1]

lemma clique_incr_eq (g : SGraph) (src : Nat) (e : List Nat) (dst : Nat) :
    clique_incr g src e dst
      = if src < dst ∧ is_all_connected g dst e = true then 1 else 0 := by
  unfold clique_incr
  by_cases h1 : src < dst
  · by_cases h2 : is_all_connected g dst e = true
    · simp [h1, h2]
    · simp [h1, h2]
  · simp [h1]

/-- C6: for a non-empty base embedding over a symmetric adjacency
structure, extend_vertex_clique (with queue updates on) emits an extended
embedding and bumps the accumulator exactly for the candidates dst from
the edges of the last vertex with dst strictly greater than the last
vertex and connected to every vertex of the embedding; extend_vertex emits
exactly the candidates (from the edges of every embedding vertex) strictly
greater than the last vertex. -/
theorem c6_clique_extension (g : SGraph) (emb : List Nat)
    (q : List (List Nat)) (num : Nat)
    (hne : emb ≠ [])
    (hsym : ∀ a b : Nat, a ∈ g.adj b ↔ b ∈ g.adj a) :
    extend_vertex_clique g emb q num true
      = (emb,
         q ++ ((g.adj (vget emb (emb.length - 1))).filter
             (fun dst => decide (vget emb (emb.length - 1) < dst
               ∧ ∀ i < emb.length, dst ∈ g.adj (vget emb i)))).map
             (fun dst => emb ++ [dst]),
         num + ((g.adj (vget emb (emb.length - 1))).filter
             (fun dst => decide (vget emb (emb.length - 1) < dst
               ∧ ∀ i < emb.length, dst ∈ g.adj (vget emb i)))).length)
    ∧ extend_vertex g emb q
      = (emb,
         q ++ ((List.range emb.length).map (fun i =>
             ((g.adj (vget emb i)).filter
               (fun dst => decide (vget emb (emb.length - 1) < dst))).map
               (fun dst => emb ++ [dst]))).join) := by
  constructor
  · rw [extend_vertex_clique_spec]
    have hδ : (g.adj (vget emb (emb.length - 1))).map
          (clique_delta g (vget emb (emb.length - 1)) true emb)
        = (g.adj (vget emb (emb.length - 1))).map
          (fun dst => if vget emb (emb.length - 1) < dst
              ∧ is_all_connected g dst emb = true then [emb ++ [dst]] else []) := by
      apply List.map_congr_left
      intro dst _
      exact clique_delta_true g _ emb dst
    have hν : (g.adj (vget emb (emb.length - 1))).map
          (clique_incr g (vget emb (emb.length - 1)) emb)
        = (g.adj (vget emb (emb.length - 1))).map
          (fun dst => if vget emb (emb.length - 1) < dst
              ∧ is_all_connected g dst emb = true then 1 else 0) := by
      apply List.map_congr_left
      intro dst _
      exact clique_incr_eq g _ emb dst
    rw [hδ, hν, join_map_ite, sum_map_ite]
    have hfil : (g.adj (vget emb (emb.length - 1))).filter
          (fun dst => decide (vget emb (emb.length - 1) < dst
            ∧ is_all_connected g dst emb = true))
        = (g.adj (vget emb (emb.length - 1))).filter
          (fun dst => decide (vget emb (emb.length - 1) < dst
            ∧ ∀ i < emb.length, dst ∈ g.adj (vget emb i))) := by
      apply List.filter_congr
      intro dst hdst
      apply decide_eq_decide.mpr
      constructor
      · rintro ⟨hlt, hconn⟩
        exact ⟨hlt, (is_all_connected_iff g hsym emb dst hdst).mp hconn⟩
      · rintro ⟨hlt, hall⟩
        exact ⟨hlt, (is_all_connected_iff g hsym emb dst hdst).mpr hall⟩
    rw [hfil]
  · rw [extend_vertex_spec]
    congr 1
    congr 1
    congr 1
    apply List.map_congr_left
    intro i _
    exact join_map_ite (g.adj (vget emb i))
      (fun dst => vget emb (emb.length - 1) < dst) (fun dst => emb ++ [dst])

/-- Triangle graph used by the C6 witness. -/
def triangle : SGraph :=
  ⟨fun v => match v with
    | 0 => [1, 2]
    | 1 => [0, 2]
    | 2 => [0, 1]
    | _ => []⟩

lemma triangle_sym : ∀ a b : Nat, a ∈ triangle.adj b ↔ b ∈ triangle.adj a := by
  intro a b
  rcases a with _ | _ | _ | a2 <;> rcases b with _ | _ | _ | b2 <;>
    simp [triangle] <;> omega

/-- Witness for C6 on the triangle graph with base embedding (0, 1). -/
theorem c6_clique_extension_witness :
    (([0, 1] : List Nat) ≠ []
     ∧ ∀ a b : Nat, a ∈ triangle.adj b ↔ b ∈ triangle.adj a)
    ∧ (extend_vertex_clique triangle [0, 1] [] 0 true
        = ([0, 1],
           [] ++ ((triangle.adj (vget [0, 1] ([0, 1].length - 1))).filter
               (fun dst => decide (vget [0, 1] ([0, 1].length - 1) < dst
                 ∧ ∀ i < [0, 1].length, dst ∈ triangle.adj (vget [0, 1] i)))).map
               (fun dst => [0, 1] ++ [dst]),
           0 + ((triangle.adj (vget [0, 1] ([0, 1].length - 1))).filter
               (fun dst => decide (vget [0, 1] ([0, 1].length - 1) < dst
                 ∧ ∀ i < [0, 1].length, dst ∈ triangle.adj (vget [0, 1] i)))).length)
       ∧ extend_vertex triangle [0, 1] []
        = ([0, 1],
           [] ++ ((List.range [0, 1].length).map (fun i =>
               ((triangle.adj (vget [0, 1] i)).filter
                 (fun dst => decide (vget [0, 1] ([0, 1].length - 1) < dst))).map
                 (fun dst => [0, 1] ++ [dst]))).join)) :=
  ⟨⟨by decide, triangle_sym⟩,
   c6_clique_extension triangle [0, 1] [] 0 (by decide) triangle_sym⟩

/-! ### Canonical aggregation of domain support (miner.h
canonical_aggregate_each, CgMapDomain overload).  The canonical-form
oracle (bliss, external) returns the canonical pattern: its id and the
slot permutation get_quick_pattern_index; both are fields of the CanonPat
value the oracle produced.  Canonical patterns are keyed by their id. -/

/-- Modelled from the spec: the canonical pattern returned by the external
canonical-form oracle — its stable id and the mapping from canonical slot
index to the quick pattern's slot index. -/
structure CanonPat where
  id : Nat
  qp_index : List Nat
deriving DecidableEq, Repr

/-- CanonicalGraph::get_quick_pattern_index. -/
def get_quick_pattern_index (cg : CanonPat) (i : Nat) : Nat :=
  cg.qp_index.getD i 0

/-- A loop of the form `for i in 0..n-1: slots[i].insert(contribution i)`:
slot i accumulates the union with `f i`.  Both the quick-pattern domain
insertion and the canonical-slot union in miner.h have this shape. -/
def slot_union_fold (v : List (Finset Nat)) (f : Nat → Finset Nat) (n : Nat) :
    List (Finset Nat) :=
  (List.range n).foldl (fun w i => w.set i ((w.getD i ∅) ∪ f i)) v

lemma slot_union_fold_length (f : Nat → Finset Nat) :
    ∀ (n : Nat) (v : List (Finset Nat)), (slot_union_fold v f n).length = v.length := by
  intro n
  induction n with
  | zero => intro v; rfl
  | succ n ih =>
    intro v
    unfold slot_union_fold at ih ⊢
    rw [List.range_succ, List.foldl_append]
    simp only [List.foldl_cons, List.foldl_nil]
    rw [List.length_set, ih]

lemma slot_union_fold_getElem? (f : Nat → Finset Nat) :
    ∀ (n : Nat) (v : List (Finset Nat)) (j : Nat),
      (slot_union_fold v f n)[j]?
        = if j < n then (v[j]?).map (fun s => s ∪ f j) else v[j]? := by
  intro n
  induction n with
  | zero => intro v j; simp [slot_union_fold]
  | succ n ih =>
    intro v j
    have hstep : slot_union_fold v f (n + 1)
        = (slot_union_fold v f n).set n
            (((slot_union_fold v f n).getD n ∅) ∪ f n) := by
      unfold slot_union_fold
      rw [List.range_succ, List.foldl_append]
      simp
    rw [hstep, List.getElem?_set]
    by_cases hjn : n = j
    · subst hjn
      rw [if_pos rfl, slot_union_fold_length f n v]
      by_cases hlen : n < v.length
      · rw [if_pos hlen, if_pos (Nat.lt_succ_self n)]
        have hv : ∃ x, v[n]? = some x := by
          rcases hx : v[n]? with _ | x
          · rw [List.getElem?_eq_none_iff] at hx
            omega
          · exact ⟨x, rfl⟩
        rcases hv with ⟨x, hx⟩
        have hgd : (slot_union_fold v f n).getD n ∅ = x := by
          rw [List.getD_eq_getElem?_getD, ih v n, if_neg (by omega), hx]
          rfl
        rw [hgd, hx]
        rfl
      · rw [if_neg hlen, if_pos (Nat.lt_succ_self n)]
        have hx : v[n]? = none := by
          rw [List.getElem?_eq_none_iff]
          omega
        rw [hx]
        rfl
    · rw [if_neg hjn, ih v j]
      by_cases hj : j < n
      · rw [if_pos hj, if_pos (by omega)]
      · rw [if_neg hj, if_neg (by omega)]

/-- Map update used to model writing back the accumulated canonical entry:
replaces the value at an existing key, appends a fresh entry otherwise. -/
def cgm_set (m : List (Nat × List (Finset Nat))) (k : Nat)
    (v : List (Finset Nat)) : List (Nat × List (Finset Nat)) :=
  if (List.lookup k m).isSome then
    m.map (fun p => if p.1 = k then (k, v) else p)
  else m ++ [(k, v)]

lemma lookup_cgm_set_self (m : List (Nat × List (Finset Nat))) (k : Nat)
    (v : List (Finset Nat)) : List.lookup k (cgm_set m k v) = some v := by
  unfold cgm_set
  split
  · rename_i hsome
    induction m with
    | nil => simp [List.lookup] at hsome
    | cons p rest ih =>
      obtain ⟨pk, pv⟩ := p
      by_cases hpk : pk = k
      · subst hpk
        simp only [List.map_cons, if_pos rfl]
        exact List.lookup_cons_self
      · have hne : k ≠ pk := fun h => hpk h.symm
        simp only [List.map_cons, if_neg hpk]
        rw [show List.lookup k ((pk, pv)
            :: rest.map (fun p => if p.1 = k then (k, v) else p))
            = List.lookup k (rest.map (fun p => if p.1 = k then (k, v) else p)) by
          simp [List.lookup, beq_eq_false_iff_ne.mpr hne]]
        apply ih
        simp only [List.lookup, beq_eq_false_iff_ne.mpr hne] at hsome
        exact hsome
  · rename_i hnone
    have hn : List.lookup k m = none := by
      rcases hx : List.lookup k m with _ | x
      · rfl
      · rw [hx] at hnone
        simp at hnone
    rw [lookup_append_none hn]
    exact List.lookup_cons_self

/-- Miner::canonical_aggregate_each (CgMapDomain overload) from miner.h:
record (qp_id, cg_id) in the Id Map (std::map::insert semantics), create
the canonical entry with numDomains empty slots if absent, then for every
canonical slot i union in the quick pattern's domain set at index
get_quick_pattern_index(i). -/
def canonical_aggregate_each_dom (qp_id numDomains : Nat)
    (domainSets : List (Finset Nat)) (cg : CanonPat)
    (cg_map : List (Nat × List (Finset Nat))) (id_map : List (Nat × Nat)) :
    List (Nat × List (Finset Nat)) × List (Nat × Nat) :=
  let id_map2 := um_insert id_map qp_id cg.id
  let entry := match List.lookup cg.id cg_map with
    | none => List.replicate numDomains (∅ : Finset Nat)
    | some v => v
  let entry2 := slot_union_fold entry
    (fun i => domainSets.getD (get_quick_pattern_index cg i) ∅) numDomains
  (cgm_set cg_map cg.id entry2, id_map2)

/-- C4: after canonical_aggregate_each (domain variant), the canonical
entry's slot i holds its previous contents unioned with the quick
pattern's domain set at slot get_quick_pattern_index(i) — slots are
matched through the oracle's permutation, not positionally. -/
theorem c4_canonical_slot_permutation (qp_id numDomains : Nat)
    (domainSets : List (Finset Nat)) (cg : CanonPat)
    (cg_map : List (Nat × List (Finset Nat))) (id_map : List (Nat × Nat))
    (hentry : ∀ v, List.lookup cg.id cg_map = some v → v.length = numDomains) :
    ∃ newE,
      List.lookup cg.id
          (canonical_aggregate_each_dom qp_id numDomains domainSets cg cg_map id_map).1
        = some newE
      ∧ newE.length = numDomains
      ∧ ∀ i < numDomains,
          newE[i]? = some
            ((((List.lookup cg.id cg_map).getD (List.replicate numDomains ∅)).getD i ∅)
              ∪ domainSets.getD (get_quick_pattern_index cg i) ∅) := by
  unfold canonical_aggregate_each_dom
  set entry := (match List.lookup cg.id cg_map with
    | none => List.replicate numDomains (∅ : Finset Nat)
    | some v => v) with hentry_def
  have hlenE : entry.length = numDomains := by
    rw [hentry_def]
    rcases hl : List.lookup cg.id cg_map with _ | v
    · simp
    · exact hentry v hl
  have hentry_eq : entry = (List.lookup cg.id cg_map).getD (List.replicate numDomains ∅) := by
    rw [hentry_def]
    rcases List.lookup cg.id cg_map with _ | v
    · rfl
    · rfl
  refine ⟨slot_union_fold entry
      (fun i => domainSets.getD (get_quick_pattern_index cg i) ∅) numDomains,
    lookup_cgm_set_self _ _ _, ?_, ?_⟩
  · rw [slot_union_fold_length, hlenE]
  · intro i hi
    rw [slot_union_fold_getElem?, if_pos hi]
    have hx : ∃ x, entry[i]? = some x := by
      rcases hx : entry[i]? with _ | x
      · rw [List.getElem?_eq_none_iff] at hx
        omega
      · exact ⟨x, rfl⟩
    rcases hx with ⟨x, hx⟩
    rw [hx]
    have hgd : ((List.lookup cg.id cg_map).getD (List.replicate numDomains ∅)).getD i ∅ = x := by
      rw [← hentry_eq, List.getD_eq_getElem?_getD, hx]
      rfl
    rw [hgd]
    rfl

/-- Witness for C4: a fresh canonical pattern with two slots and the
swap permutation, aggregated into an empty canonical map. -/
theorem c4_canonical_slot_permutation_witness :
    (∀ v : List (Finset Nat),
        List.lookup 3 ([] : List (Nat × List (Finset Nat))) = some v → v.length = 2)
    ∧ ∃ newE,
        List.lookup 3
            (canonical_aggregate_each_dom 5 2 [{10}, {20}] ⟨3, [1, 0]⟩ [] []).1
          = some newE
        ∧ newE.length = 2
        ∧ ∀ i < 2,
            newE[i]? = some
              ((((List.lookup 3 ([] : List (Nat × List (Finset Nat)))).getD
                  (List.replicate 2 ∅)).getD i ∅)
                ∪ [({10} : Finset Nat), {20}].getD (get_quick_pattern_index ⟨3, [1, 0]⟩ i) ∅) :=
  ⟨(fun v h => nomatch h),
   c4_canonical_slot_permutation 5 2 [{10}, {20}] ⟨3, [1, 0]⟩ [] []
     (fun v h => nomatch h)⟩

/-! ### Quick-pattern aggregation algebra (miner.h quick_aggregate and
quick_aggregate_each).  The quick-pattern key (quick_pattern.h, not in
src) is an abstract key function kp; accumulation maps are total functions
into Option, the right equality notion for unordered_map contents.  The
per-thread map merge is not in miner.h and is modelled from the spec:
combine by key, summing frequency counters and unioning per-slot domain
sets. -/

/-- Modelled from the spec: merging two optional per-key accumulator
values — present on both sides combines with f, one-sided values are
kept. -/
def omerge {α : Type} (f : α → α → α) : Option α → Option α → Option α
  | some a, some b => some (f a b)
  | some a, none => some a
  | none, b => b

lemma omerge_none_right {α : Type} (f : α → α → α) (x : Option α) :
    omerge f x none = x := by
  cases x <;> rfl

lemma omerge_comm {α : Type} (f : α → α → α) (hc : ∀ a b, f a b = f b a)
    (x y : Option α) : omerge f x y = omerge f y x := by
  cases x with
  | none => cases y <;> rfl
  | some a =>
    cases y with
    | none => rfl
    | some b => exact congrArg some (hc a b)

lemma omerge_assoc {α : Type} (f : α → α → α)
    (ha : ∀ a b c, f (f a b) c = f a (f b c)) (x y z : Option α) :
    omerge f (omerge f x y) z = omerge f x (omerge f y z) := by
  cases x with
  | none => rfl
  | some a =>
    cases y with
    | none => rfl
    | some b =>
      cases z with
      | none => rfl
      | some c => exact congrArg some (ha a b c)

lemma omerge_left_comm {α : Type} (f : α → α → α)
    (hc : ∀ a b, f a b = f b a) (ha : ∀ a b c, f (f a b) c = f a (f b c))
    (x y z : Option α) :
    omerge f x (omerge f y z) = omerge f y (omerge f x z) := by
  rw [← omerge_assoc f ha, omerge_comm f hc x y, omerge_assoc f ha]

/-- The empty per-thread accumulation map. -/
def agg_empty {K α : Type} : K → Option α := fun _ => none

/-- Per-embedding step of Miner::quick_aggregate (QpMapFreq overload) and
quick_aggregate_each: a seen key's count is incremented, an unseen key is
inserted with count 1 (both are one more than the value-initialized 0). -/
def qp_step_freq {K : Type} [DecidableEq K] (kp : EdgeEmbedding → K)
    (m : K → Option Nat) (e : EdgeEmbedding) : K → Option Nat :=
  fun k => if k = kp e then some ((m (kp e)).getD 0 + 1) else m k

/-- Miner::quick_aggregate (QpMapFreq overload) from miner.h: fold the
frequency step over the embedding queue. -/
def quick_aggregate_freq {K : Type} [DecidableEq K] (kp : EdgeEmbedding → K)
    (m : K → Option Nat) (q : List EdgeEmbedding) : K → Option Nat :=
  q.foldl (qp_step_freq kp) m

/-- Modelled from the spec: merge two frequency maps by key, summing
counters. -/
def merge_freq {K : Type} (m1 m2 : K → Option Nat) : K → Option Nat :=
  fun k => omerge (fun a b => a + b) (m1 k) (m2 k)

/-- Contribution of one embedding to a frequency map. -/
def unit_freq {K : Type} [DecidableEq K] (kp : EdgeEmbedding → K)
    (e : EdgeEmbedding) : K → Option Nat :=
  fun k => if k = kp e then some 1 else none

lemma qp_step_freq_merge {K : Type} [DecidableEq K] (kp : EdgeEmbedding → K)
    (m : K → Option Nat) (e : EdgeEmbedding) :
    qp_step_freq kp m e = merge_freq m (unit_freq kp e) := by
  funext k
  unfold qp_step_freq merge_freq unit_freq
  by_cases h : k = kp e
  · rw [if_pos h, if_pos h, h]
    cases m (kp e) <;> rfl
  · rw [if_neg h, if_neg h]
    exact (omerge_none_right _ _).symm

lemma qaf_merge {K : Type} [DecidableEq K] (kp : EdgeEmbedding → K) :
    ∀ (q : List EdgeEmbedding) (m : K → Option Nat),
      quick_aggregate_freq kp m q
        = merge_freq m (quick_aggregate_freq kp agg_empty q) := by
  intro q
  induction q with
  | nil =>
    intro m
    funext k
    exact (omerge_none_right _ _).symm
  | cons e q ih =>
    intro m
    show quick_aggregate_freq kp (qp_step_freq kp m e) q = _
    rw [ih (qp_step_freq kp m e), qp_step_freq_merge]
    have hA : quick_aggregate_freq kp agg_empty (e :: q)
        = merge_freq (unit_freq kp e) (quick_aggregate_freq kp agg_empty q) := by
      show quick_aggregate_freq kp (qp_step_freq kp agg_empty e) q = _
      rw [ih (qp_step_freq kp agg_empty e), qp_step_freq_merge]
      congr 1
    rw [hA]
    funext k
    exact omerge_assoc _ (fun a b c => Nat.add_assoc a b c) _ _ _

lemma qaf_cons {K : Type} [DecidableEq K] (kp : EdgeEmbedding → K)
    (e : EdgeEmbedding) (q : List EdgeEmbedding) :
    quick_aggregate_freq kp agg_empty (e :: q)
      = merge_freq (unit_freq kp e) (quick_aggregate_freq kp agg_empty q) := by
  show quick_aggregate_freq kp (qp_step_freq kp agg_empty e) q = _
  rw [qaf_merge kp q (qp_step_freq kp agg_empty e), qp_step_freq_merge]
  congr 1

lemma qaf_perm {K : Type} [DecidableEq K] (kp : EdgeEmbedding → K)
    {q q2 : List EdgeEmbedding} (h : q.Perm q2) :
    quick_aggregate_freq kp agg_empty q = quick_aggregate_freq kp agg_empty q2 := by
  induction h with
  | nil => rfl
  | cons e _ ih => rw [qaf_cons, qaf_cons, ih]
  | swap x y l =>
    rw [qaf_cons, qaf_cons, qaf_cons, qaf_cons]
    funext k
    exact omerge_left_comm _ (fun a b => Nat.add_comm a b)
      (fun a b c => Nat.add_assoc a b c) _ _ _
  | trans _ _ ih1 ih2 => rw [ih1, ih2]

lemma qaf_append {K : Type} [DecidableEq K] (kp : EdgeEmbedding → K)
    (q1 q2 : List EdgeEmbedding) :
    quick_aggregate_freq kp agg_empty (q1 ++ q2)
      = merge_freq (quick_aggregate_freq kp agg_empty q1)
          (quick_aggregate_freq kp agg_empty q2) := by
  show (q1 ++ q2).foldl (qp_step_freq kp) agg_empty = _
  rw [List.foldl_append]
  exact qaf_merge kp q2 _

lemma qaf_parts {K : Type} [DecidableEq K] (kp : EdgeEmbedding → K) :
    ∀ parts : List (List EdgeEmbedding),
      (parts.map (quick_aggregate_freq kp agg_empty)).foldr merge_freq agg_empty
        = quick_aggregate_freq kp agg_empty parts.join := by
  intro parts
  induction parts with
  | nil => rfl
  | cons p ps ih =>
    simp only [List.map_cons, List.foldr_cons, List.join_cons]
    rw [ih, qaf_append]

/-- Per-slot union of two domain vectors (merging canonically-sized
vectors slot by slot). -/
def zip_union (v w : List (Finset Nat)) : List (Finset Nat) :=
  List.zipWith (fun a b => a ∪ b) v w

lemma zip_union_comm : ∀ v w, zip_union v w = zip_union w v := by
  intro v w
  unfold zip_union
  rw [List.zipWith_comm]
  congr 1
  funext a b
  exact Finset.union_comm b a

lemma zip_union_assoc : ∀ u v w, zip_union (zip_union u v) w = zip_union u (zip_union v w) := by
  intro u
  induction u with
  | nil => intro v w; rfl
  | cons a u ih =>
    intro v w
    cases v with
    | nil => rfl
    | cons b v =>
      cases w with
      | nil => rfl
      | cons c w =>
        simp only [zip_union, List.zipWith_cons_cons]
        rw [Finset.union_assoc]
        exact congrArg _ (ih v w)

/-- Per-embedding step of Miner::quick_aggregate (QpMapDomain overload)
and quick_aggregate_each: an unseen key gets a vector of emb.size() empty
slots; then slot i receives (inserts) the embedding's vertex at position
i. -/
def qp_step_dom {K : Type} [DecidableEq K] (kp : EdgeEmbedding → K)
    (m : K → Option (List (Finset Nat))) (e : EdgeEmbedding) :
    K → Option (List (Finset Nat)) :=
  fun k => if k = kp e then
    some (slot_union_fold
      (match m (kp e) with
       | none => List.replicate e.size ∅
       | some v => v)
      (fun i => {e.get_vertex i}) e.size)
  else m k

/-- Miner::quick_aggregate (QpMapDomain overload) from miner.h. -/
def quick_aggregate_dom {K : Type} [DecidableEq K] (kp : EdgeEmbedding → K)
    (m : K → Option (List (Finset Nat))) (q : List EdgeEmbedding) :
    K → Option (List (Finset Nat)) :=
  q.foldl (qp_step_dom kp) m

/-- Modelled from the spec: merge two domain maps by key, unioning the
per-slot sets. -/
def merge_dom {K : Type} (m1 m2 : K → Option (List (Finset Nat))) :
    K → Option (List (Finset Nat)) :=
  fun k => omerge zip_union (m1 k) (m2 k)

/-- Contribution of one embedding to a domain map: singleton slots. -/
def domain_slots (e : EdgeEmbedding) : List (Finset Nat) :=
  (List.range e.size).map (fun i => {e.get_vertex i})

/-- Unit domain map of one embedding. -/
def unit_dom {K : Type} [DecidableEq K] (kp : EdgeEmbedding → K)
    (e : EdgeEmbedding) : K → Option (List (Finset Nat)) :=
  fun k => if k = kp e then some (domain_slots e) else none

lemma slot_union_fold_replicate (f : Nat → Finset Nat) (n : Nat) :
    slot_union_fold (List.replicate n ∅) f n = (List.range n).map f := by
  apply List.ext_getElem?
  intro j
  rw [slot_union_fold_getElem?]
  by_cases hj : j < n
  · rw [if_pos hj]
    have h1 : (List.replicate n (∅ : Finset Nat))[j]? = some ∅ := by
      rw [List.getElem?_replicate, if_pos hj]
    have h2 : ((List.range n).map f)[j]? = some (f j) := by
      rw [List.getElem?_map, List.getElem?_range hj]
      rfl
    rw [h1, h2]
    simp
  · rw [if_neg hj]
    have h1 : (List.replicate n (∅ : Finset Nat))[j]? = none := by
      rw [List.getElem?_replicate, if_neg hj]
    have h2 : ((List.range n).map f)[j]? = none := by
      rw [List.getElem?_map]
      have : (List.range n)[j]? = none := by
        rw [List.getElem?_eq_none_iff]
        simpa using Nat.le_of_not_lt hj
      rw [this]
      rfl
    rw [h1, h2]

lemma slot_union_fold_zip (v : List (Finset Nat)) (f : Nat → Finset Nat)
    (n : Nat) (hv : v.length = n) :
    slot_union_fold v f n = zip_union v ((List.range n).map f) := by
  apply List.ext_getElem?
  intro j
  rw [slot_union_fold_getElem?]
  unfold zip_union
  rw [List.getElem?_zipWith]
  by_cases hj : j < n
  · rw [if_pos hj]
    have hx : ∃ x, v[j]? = some x := by
      rcases hx : v[j]? with _ | x
      · rw [List.getElem?_eq_none_iff] at hx
        omega
      · exact ⟨x, rfl⟩
    rcases hx with ⟨x, hx⟩
    have h2 : ((List.range n).map f)[j]? = some (f j) := by
      rw [List.getElem?_map, List.getElem?_range hj]
      rfl
    rw [hx, h2]
    rfl
  · rw [if_neg hj]
    have hx : v[j]? = none := by
      rw [List.getElem?_eq_none_iff]
      omega
    rw [hx]

/-- Length compatibility invariant: every stored domain vector has the
slot count of the embeddings carrying its key. -/
def SizedMap {K : Type} (kp : EdgeEmbedding → K)
    (m : K → Option (List (Finset Nat))) : Prop :=
  ∀ (e : EdgeEmbedding) (v : List (Finset Nat)),
    m (kp e) = some v → v.length = e.size

lemma sized_agg_empty {K : Type} (kp : EdgeEmbedding → K) :
    SizedMap kp (agg_empty : K → Option (List (Finset Nat))) := by
  intro e v h
  exact absurd h (by simp [agg_empty])

lemma qp_step_dom_merge {K : Type} [DecidableEq K] (kp : EdgeEmbedding → K)
    (m : K → Option (List (Finset Nat))) (e : EdgeEmbedding)
    (hm : ∀ v, m (kp e) = some v → v.length = e.size) :
    qp_step_dom kp m e = merge_dom m (unit_dom kp e) := by
  funext k
  unfold qp_step_dom merge_dom unit_dom
  by_cases h : k = kp e
  · rw [if_pos h, if_pos h, h]
    rcases hx : m (kp e) with _ | v
    · rw [slot_union_fold_replicate]
      rfl
    · rw [slot_union_fold_zip v _ _ (hm v hx)]
      rfl
  · rw [if_neg h, if_neg h]
    exact (omerge_none_right _ _).symm

lemma sized_step {K : Type} [DecidableEq K] (kp : EdgeEmbedding → K)
    (hcompat : ∀ e1 e2 : EdgeEmbedding, kp e1 = kp e2 → e1.size = e2.size)
    (m : K → Option (List (Finset Nat))) (e : EdgeEmbedding)
    (hm : SizedMap kp m) : SizedMap kp (qp_step_dom kp m e) := by
  intro e2 v hv
  unfold qp_step_dom at hv
  by_cases h : kp e2 = kp e
  · rw [if_pos h] at hv
    have hsz : e2.size = e.size := hcompat e2 e h
    injection hv with hv2
    rw [← hv2, slot_union_fold_length]
    rcases hx : m (kp e) with _ | w
    · show (List.replicate e.size (∅ : Finset Nat)).length = e2.size
      simp [hsz]
    · show w.length = e2.size
      rw [hm e w hx]
      omega
  · rw [if_neg h] at hv
    exact hm e2 v hv

lemma sized_fold {K : Type} [DecidableEq K] (kp : EdgeEmbedding → K)
    (hcompat : ∀ e1 e2 : EdgeEmbedding, kp e1 = kp e2 → e1.size = e2.size) :
    ∀ (q : List EdgeEmbedding) (m : K → Option (List (Finset Nat))),
      SizedMap kp m → SizedMap kp (quick_aggregate_dom kp m q) := by
  intro q
  induction q with
  | nil => intro m hm; exact hm
  | cons e q ih =>
    intro m hm
    exact ih _ (sized_step kp hcompat m e hm)

lemma qad_merge {K : Type} [DecidableEq K] (kp : EdgeEmbedding → K)
    (hcompat : ∀ e1 e2 : EdgeEmbedding, kp e1 = kp e2 → e1.size = e2.size) :
    ∀ (q : List EdgeEmbedding) (m : K → Option (List (Finset Nat))),
      SizedMap kp m →
      quick_aggregate_dom kp m q
        = merge_dom m (quick_aggregate_dom kp agg_empty q) := by
  intro q
  induction q with
  | nil =>
    intro m _
    funext k
    exact (omerge_none_right _ _).symm
  | cons e q ih =>
    intro m hm
    show quick_aggregate_dom kp (qp_step_dom kp m e) q = _
    rw [ih (qp_step_dom kp m e) (sized_step kp hcompat m e hm),
      qp_step_dom_merge kp m e (fun v hv => hm e v hv)]
    have hA : quick_aggregate_dom kp agg_empty (e :: q)
        = merge_dom (unit_dom kp e) (quick_aggregate_dom kp agg_empty q) := by
      show quick_aggregate_dom kp (qp_step_dom kp agg_empty e) q = _
      rw [ih (qp_step_dom kp agg_empty e)
          (sized_step kp hcompat agg_empty e (sized_agg_empty kp)),
        qp_step_dom_merge kp agg_empty e
          (fun v hv => (sized_agg_empty kp) e v hv)]
      congr 1
    rw [hA]
    funext k
    exact omerge_assoc _ zip_union_assoc _ _ _

lemma qad_cons {K : Type} [DecidableEq K] (kp : EdgeEmbedding → K)
    (hcompat : ∀ e1 e2 : EdgeEmbedding, kp e1 = kp e2 → e1.size = e2.size)
    (e : EdgeEmbedding) (q : List EdgeEmbedding) :
    quick_aggregate_dom kp agg_empty (e :: q)
      = merge_dom (unit_dom kp e) (quick_aggregate_dom kp agg_empty q) := by
  show quick_aggregate_dom kp (qp_step_dom kp agg_empty e) q = _
  rw [qad_merge kp hcompat q (qp_step_dom kp agg_empty e)
      (sized_step kp hcompat agg_empty e (sized_agg_empty kp)),
    qp_step_dom_merge kp agg_empty e (fun v hv => (sized_agg_empty kp) e v hv)]
  congr 1

lemma qad_perm {K : Type} [DecidableEq K] (kp : EdgeEmbedding → K)
    (hcompat : ∀ e1 e2 : EdgeEmbedding, kp e1 = kp e2 → e1.size = e2.size)
    {q q2 : List EdgeEmbedding} (h : q.Perm q2) :
    quick_aggregate_dom kp agg_empty q = quick_aggregate_dom kp agg_empty q2 := by
  induction h with
  | nil => rfl
  | cons e _ ih => rw [qad_cons kp hcompat, qad_cons kp hcompat, ih]
  | swap x y l =>
    rw [qad_cons kp hcompat, qad_cons kp hcompat, qad_cons kp hcompat,
      qad_cons kp hcompat]
    funext k
    exact omerge_left_comm _ zip_union_comm zip_union_assoc _ _ _
  | trans _ _ ih1 ih2 => rw [ih1, ih2]

lemma qad_append {K : Type} [DecidableEq K] (kp : EdgeEmbedding → K)
    (hcompat : ∀ e1 e2 : EdgeEmbedding, kp e1 = kp e2 → e1.size = e2.size)
    (q1 q2 : List EdgeEmbedding) :
    quick_aggregate_dom kp agg_empty (q1 ++ q2)
      = merge_dom (quick_aggregate_dom kp agg_empty q1)
          (quick_aggregate_dom kp agg_empty q2) := by
  show (q1 ++ q2).foldl (qp_step_dom kp) agg_empty = _
  rw [List.foldl_append]
  exact qad_merge kp hcompat q2 _
    (sized_fold kp hcompat q1 agg_empty (sized_agg_empty kp))

lemma qad_parts {K : Type} [DecidableEq K] (kp : EdgeEmbedding → K)
    (hcompat : ∀ e1 e2 : EdgeEmbedding, kp e1 = kp e2 → e1.size = e2.size) :
    ∀ parts : List (List EdgeEmbedding),
      (parts.map (quick_aggregate_dom kp agg_empty)).foldr merge_dom agg_empty
        = quick_aggregate_dom kp agg_empty parts.join := by
  intro parts
  induction parts with
  | nil => rfl
  | cons p ps ih =>
    simp only [List.map_cons, List.foldr_cons, List.join_cons]
    rw [ih, qad_append kp hcompat]

/-- C7: aggregating any partition of the accepted embeddings in
independent contexts and merging by key (frequency: sum; domain: per-slot
union) gives the same final map as aggregating the whole multiset in one
context, for every partitioning and every merge order — the merges are
commutative and associative.  The domain half assumes what the quick
pattern guarantees: embeddings with the same key have the same size. -/
theorem c7_partition_merge {K : Type} [DecidableEq K] (kp : EdgeEmbedding → K)
    (hcompat : ∀ e1 e2 : EdgeEmbedding, kp e1 = kp e2 → e1.size = e2.size)
    (all : List EdgeEmbedding) (parts : List (List EdgeEmbedding))
    (hperm : parts.join.Perm all) :
    ((parts.map (quick_aggregate_freq kp agg_empty)).foldr merge_freq agg_empty
        = quick_aggregate_freq kp agg_empty all)
    ∧ ((parts.map (quick_aggregate_dom kp agg_empty)).foldr merge_dom agg_empty
        = quick_aggregate_dom kp agg_empty all)
    ∧ (∀ m1 m2 : K → Option Nat, merge_freq m1 m2 = merge_freq m2 m1)
    ∧ (∀ m1 m2 m3 : K → Option Nat,
        merge_freq (merge_freq m1 m2) m3 = merge_freq m1 (merge_freq m2 m3))
    ∧ (∀ m1 m2 : K → Option (List (Finset Nat)), merge_dom m1 m2 = merge_dom m2 m1)
    ∧ (∀ m1 m2 m3 : K → Option (List (Finset Nat)),
        merge_dom (merge_dom m1 m2) m3 = merge_dom m1 (merge_dom m2 m3)) := by
  refine ⟨?_, ?_, ?_, ?_, ?_, ?_⟩
  · rw [qaf_parts kp parts]
    exact qaf_perm kp hperm
  · rw [qad_parts kp hcompat parts]
    exact qad_perm kp hcompat hperm
  · intro m1 m2
    funext k
    exact omerge_comm _ (fun a b => Nat.add_comm a b) _ _
  · intro m1 m2 m3
    funext k
    exact omerge_assoc _ (fun a b c => Nat.add_assoc a b c) _ _ _
  · intro m1 m2
    funext k
    exact omerge_comm _ zip_union_comm _ _
  · intro m1 m2 m3
    funext k
    exact omerge_assoc _ zip_union_assoc _ _ _

/-- Witness for C7: two embeddings keyed by their size, split into two
singleton partitions listed in the opposite order. -/
theorem c7_partition_merge_witness :
    ((∀ e1 e2 : EdgeEmbedding,
        EdgeEmbedding.size e1 = EdgeEmbedding.size e2 → e1.size = e2.size)
     ∧ ([[(⟨[⟨2, 0⟩], 0⟩ : EdgeEmbedding)], [⟨[⟨1, 0⟩], 0⟩]].join).Perm
         [(⟨[⟨1, 0⟩], 0⟩ : EdgeEmbedding), ⟨[⟨2, 0⟩], 0⟩])
    ∧ (([[(⟨[⟨2, 0⟩], 0⟩ : EdgeEmbedding)], [⟨[⟨1, 0⟩], 0⟩]].map
          (quick_aggregate_freq EdgeEmbedding.size agg_empty)).foldr merge_freq agg_empty
        = quick_aggregate_freq EdgeEmbedding.size agg_empty
            [⟨[⟨1, 0⟩], 0⟩, ⟨[⟨2, 0⟩], 0⟩])
      ∧ (([[(⟨[⟨2, 0⟩], 0⟩ : EdgeEmbedding)], [⟨[⟨1, 0⟩], 0⟩]].map
          (quick_aggregate_dom EdgeEmbedding.size agg_empty)).foldr merge_dom agg_empty
        = quick_aggregate_dom EdgeEmbedding.size agg_empty
            [⟨[⟨1, 0⟩], 0⟩, ⟨[⟨2, 0⟩], 0⟩])
      ∧ (∀ m1 m2 : Nat → Option Nat, merge_freq m1 m2 = merge_freq m2 m1)
      ∧ (∀ m1 m2 m3 : Nat → Option Nat,
          merge_freq (merge_freq m1 m2) m3 = merge_freq m1 (merge_freq m2 m3))
      ∧ (∀ m1 m2 : Nat → Option (List (Finset Nat)), merge_dom m1 m2 = merge_dom m2 m1)
      ∧ (∀ m1 m2 m3 : Nat → Option (List (Finset Nat)),
          merge_dom (merge_dom m1 m2) m3 = merge_dom m1 (merge_dom m2 m3)) :=
  ⟨⟨(fun _ _ h => h), by decide⟩,
   c7_partition_merge EdgeEmbedding.size (fun _ _ h => h)
     [⟨[⟨1, 0⟩], 0⟩, ⟨[⟨2, 0⟩], 0⟩]
     [[⟨[⟨2, 0⟩], 0⟩], [⟨[⟨1, 0⟩], 0⟩]] (by decide)⟩

end GaloisMining
